import Mathlib

/-!
Verification of the git workflow scripts of the genaicommit repository.

The embedding covers:
* `scripts/git-release.sh` (release merge + semantic tag computation),
* `scripts/git-release-retag.sh` (tag rebuilding),
* `scripts/git-develop-commit.sh` (batch commit orchestrator, Python).

Strings are modelled through their character lists (`String.data`), so that
every definition evaluates by kernel reduction on concrete inputs.
-/

deriving instance DecidableEq for Except

namespace GenaiCommit

/-! ## Character-list string utilities

These model the string primitives the scripts use: splitting on a single
character (Python `str.split`, bash `IFS=c read`), whitespace trimming
(Python `str.strip`, the bash `trim` helper), lower-casing, substring
containment (bash `[[ $s == *pat* ]]`), and decimal digit parsing.
-/

/-- Split a character list at every occurrence of `sep`
(Python `s.split(sep)` with no maxsplit; always at least one part). -/
def splitCh (sep : Char) : List Char → List (List Char)
  | [] => [[]]
  | c :: rest =>
    let r := splitCh sep rest
    if c = sep then [] :: r
    else
      match r with
      | [] => [[c]]
      | h :: t => (c :: h) :: t

/-- Interleave `sep` between the given parts (inverse of `splitCh`). -/
def joinWith (sep : Char) : List (List Char) → List Char
  | [] => []
  | [p] => p
  | p :: rest => p ++ sep :: joinWith sep rest

/-- Python `s.split(sep, maxsplit)`: at most `maxsplit + 1` parts, the last
part keeping every later separator verbatim. -/
def splitChMax (sep : Char) (maxsplit : Nat) (l : List Char) : List (List Char) :=
  let parts := splitCh sep l
  if parts.length ≤ maxsplit + 1 then parts
  else parts.take maxsplit ++ [joinWith sep (parts.drop maxsplit)]

/-- Strip whitespace from both ends (Python `str.strip`, bash `trim`). -/
def trimChars (l : List Char) : List Char :=
  ((l.dropWhile Char.isWhitespace).reverse.dropWhile Char.isWhitespace).reverse

/-- Lower-case every character (Python `str.lower`). -/
def lowerChars (l : List Char) : List Char :=
  l.map Char.toLower

/-- Whether `pat` occurs at the head of `l`. -/
def leadsWith : List Char → List Char → Bool
  | [], _ => true
  | _ :: _, [] => false
  | a :: as, b :: bs => a = b && leadsWith as bs

/-- Whether `pat` occurs anywhere inside `l`
(bash pattern `[[ $l == *pat* ]]`). -/
def hasSub (pat : List Char) : List Char → Bool
  | [] => pat.isEmpty
  | c :: rest => leadsWith pat (c :: rest) || hasSub pat rest

/-- Value of a digit list read in base 10. -/
def digitsVal (l : List Char) : Nat :=
  l.foldl (fun a c => a * 10 + (c.toNat - 48)) 0

/-- Parse a non-empty all-digit list (the `[0-9]+` regex atoms). -/
def parseDigits (l : List Char) : Option Nat :=
  if l ≠ [] ∧ l.all Char.isDigit then some (digitsVal l) else none

/-- Code-point lexicographic order on character lists
(the order Python `sorted` uses on strings). -/
def strLe : List Char → List Char → Bool
  | [], _ => true
  | _ :: _, [] => false
  | a :: as, b :: bs =>
    if a.toNat < b.toNat then true
    else if b.toNat < a.toNat then false
    else strLe as bs

/-! ## `git-release.sh`: semantic tag computation

`scripts/git-release.sh` scans `git tag --list 'v*' --sort=-version:refname`
and takes the first tag matching `^v[0-9]+\.[0-9]+\.[0-9]+$`, i.e. the
version-wise highest matching tag; with no match it starts at `v0.0.1`,
otherwise it increments only the patch component.
-/

/-- The bash regex `^v([0-9]+)\.([0-9]+)\.([0-9]+)$`: a leading `v`, then
exactly three dot-separated digit runs, captured as numbers. -/
def parseSemverTag (t : String) : Option (Nat × Nat × Nat) :=
  match t.data with
  | 'v' :: rest =>
    match (splitCh '.' rest).map parseDigits with
    | [some a, some b, some c] => some (a, b, c)
    | _ => none
  | _ => none

/-- Strict version order on parsed `v<major>.<minor>.<patch>` triples
(the numeric order `--sort=-version:refname` establishes between tags that
match the semver regex). -/
def semverLt (x y : Nat × Nat × Nat) : Bool :=
  x.1 < y.1 || (x.1 = y.1 && (x.2.1 < y.2.1 || (x.2.1 = y.2.1 && x.2.2 < y.2.2)))

/-- Keep the version-wise larger of the best-so-far and the next triple. -/
def semverMaxStep (acc : Option (Nat × Nat × Nat)) (v : Nat × Nat × Nat) :
    Option (Nat × Nat × Nat) :=
  match acc with
  | none => some v
  | some w => some (if semverLt w v then v else w)

/-- The highest semver triple among the tags that match the regex: the
first regex match of the descending `version:refname` listing. -/
def lastSemverTag (tags : List String) : Option (Nat × Nat × Nat) :=
  (tags.filterMap parseSemverTag).foldl semverMaxStep none

/-- Render a semver triple back to a `v<major>.<minor>.<patch>` tag name. -/
def renderSemverTag (v : Nat × Nat × Nat) : String :=
  "v" ++ toString v.1 ++ "." ++ toString v.2.1 ++ "." ++ toString v.2.2

/-- Lines 316–345 of git-release.sh: no semver tag yet gives `v0.0.1`;
otherwise major/minor are kept and patch is incremented. -/
def computeNextTag (tags : List String) : String :=
  match lastSemverTag tags with
  | none => renderSemverTag (0, 0, 1)
  | some (major, minor, patch) => renderSemverTag (major, minor, patch + 1)

/-! ## git-release.sh: argument phase and merge/push/tag sequence

The script parses flags into the bash variables `commit_type`,
`commit_scope`, `commit_description`, `commit_body` and `raw_spec`
(empty string means unset), rejects mixed or missing input forms
(lines 170–190), and — after validation — merges develop into main,
pushes main, and only then runs the semantic-tag phase (lines 303–357).
`set -euo pipefail` makes every failure abort on the spot, leaving all
mutations performed so far in place.
-/

/-- The bash argument variables of git-release.sh (empty = unset). -/
structure ReleaseArgs where
  commit_type : String
  commit_scope : String
  commit_description : String
  commit_body : String
  raw_spec : String
deriving DecidableEq

/-- Line 171: any of the four flag variables non-empty. -/
def releaseHasFlags (a : ReleaseArgs) : Bool :=
  a.commit_type ≠ "" || a.commit_scope ≠ "" || a.commit_description ≠ "" || a.commit_body ≠ ""

/-- Line 176: a positional COMMIT_SPEC was given. -/
def releaseHasPositional (a : ReleaseArgs) : Bool :=
  a.raw_spec ≠ ""

inductive ReleaseArgErr
  /-- Line 181: flags and positional spec were mixed. -/
  | conflictBothForms
  /-- Line 187: no commit specification at all. -/
  | noSpec
deriving DecidableEq

/-- Lines 180–190: mutual exclusion of the two input forms, checked
before any git command runs. -/
def releaseArgCheck (a : ReleaseArgs) : Option ReleaseArgErr :=
  if releaseHasFlags a && releaseHasPositional a then some .conflictBothForms
  else if !releaseHasFlags a && !releaseHasPositional a then some .noSpec
  else none

/-- The repository facts the release run mutates. -/
structure RepoState where
  /-- develop has been merged into local main (line 307). -/
  mergedIntoMain : Bool
  /-- origin/main carries the merge (line 311). -/
  originMainUpdated : Bool
  /-- local tag names (`refs/tags`). -/
  tags : List String
  /-- tag names present on origin. -/
  originTags : List String
deriving DecidableEq

inductive ReleaseErr
  | mergeFail
  | pushMainFail
  /-- Line 349: the computed semantic tag already exists. -/
  | tagExists
  | tagCreateFail
  | tagPushFail
deriving DecidableEq

/-- The failures that can arise inside the tag phase (lines 313–357). -/
def tagPhaseErrs : List ReleaseErr :=
  [.tagExists, .tagCreateFail, .tagPushFail]

/-- Lines 303–357 of git-release.sh: merge develop into main, push main,
then (unless `--no-tag`) compute the next semantic tag, abort if it
already exists, create it, and push it.  The booleans are the success of
the corresponding git subprocesses; under `set -e` the first failure
stops the script, returning the state reached so far. -/
def releaseRun (mergeOk pushOk tagCreateOk tagPushOk createTag : Bool)
    (s : RepoState) : RepoState × Option ReleaseErr :=
  if mergeOk = false then (s, some .mergeFail)
  else
    let s1 := { s with mergedIntoMain := true }
    if pushOk = false then (s1, some .pushMainFail)
    else
      let s2 := { s1 with originMainUpdated := true }
      if createTag then
        let semver_tag := computeNextTag s2.tags
        if s2.tags.contains semver_tag then (s2, some .tagExists)
        else if tagCreateOk = false then (s2, some .tagCreateFail)
        else
          let s3 := { s2 with tags := s2.tags ++ [semver_tag] }
          if tagPushOk = false then (s3, some .tagPushFail)
          else ({ s3 with originTags := s3.originTags ++ [semver_tag] }, none)
      else (s2, none)

/-! ## git-release-retag.sh: tag rebuilding

The script deletes every `release-*` and `v*` tag, walks main's
first-parent history oldest-first, classifies release commits (subject
containing `release`, or hash in the special list), aborts when none is
found, and otherwise tags commit number `i` as `v0.0.i` with message
`Release v0.0.i`, 1-indexed in walk order.
-/

/-- One commit of the first-parent walk (`git log --format='%H %s'`). -/
structure Commit where
  hash : String
  subject : String
deriving DecidableEq

/-- Lines 165–169 of git-release-retag.sh: the hard-coded special
release hashes. -/
def SPECIAL_RELEASE_HASHES : List String :=
  ["0dab4c5a45cc07eddcbf4bd17519f48c43a0cc15",
   "dc393b3a49570ec5e9dc2e8759659392d77e7340",
   "54549ca55bd69301cd66c83c7cf6c226005fdd0c"]

/-- Lines 171–180: membership in the (injectable) special-hash set. -/
def isSpecialRelease (specials : List String) (h : String) : Bool :=
  specials.contains h

/-- Line 193: the subject contains `release`, or the hash is special. -/
def isReleaseCommit (specials : List String) (c : Commit) : Bool :=
  hasSub "release".data c.subject.data || isSpecialRelease specials c.hash

/-- Lines 182–197: hashes of the classified commits, in the oldest-first
walk order of the given first-parent history. -/
def releaseCommits (specials : List String) (history : List Commit) : List String :=
  (history.filter (isReleaseCommit specials)).map Commit.hash

/-- Lines 215–222: the tagging loop, producing
(tag name, annotation message, target hash) triples with a running index. -/
def retagFrom (i : Nat) : List String → List (String × String × String)
  | [] => []
  | h :: t =>
    ("v0.0." ++ toString i, "Release v0.0." ++ toString i, h) :: retagFrom (i + 1) t

/-- Outcome of a retag run. -/
structure RetagResult where
  /-- tags surviving the deletion phase (lines 139–159). -/
  keptTags : List String
  /-- annotated tags created by the tagging loop. -/
  created : List (String × String × String)
  /-- the fatal abort of lines 199–202 (no release commit found). -/
  aborted : Bool
deriving DecidableEq

/-- Lines 139–225 of git-release-retag.sh, after confirmation: delete all
`release-*` and `v*` tags, classify release commits, abort fatally when
none exists, otherwise create `v0.0.1 .. v0.0.N`. -/
def retagRun (specials : List String) (history : List Commit)
    (tags : List String) : RetagResult :=
  let kept := tags.filter
    (fun t => !(leadsWith "release-".data t.data || leadsWith "v".data t.data))
  let rcs := releaseCommits specials history
  if rcs.isEmpty then ⟨kept, [], true⟩
  else ⟨kept, retagFrom 1 rcs, false⟩

/-! ## git-develop-commit.sh (Python): batch commit workflow -/

/-- Valid commit types of git-develop-commit.sh (line 372). -/
def VALID_TYPES : List String :=
  ["feat", "fix", "refactor", "chore", "docs", "test", "style", "perf"]

/-- Valid scopes of git-develop-commit.sh (line 373). -/
def VALID_SCOPES : List String :=
  ["utils", "controle", "sql", "dag", "config", "monitoring", "scripts", "docs", "*"]

/-- Python `s.strip()`. -/
def strTrim (s : String) : String :=
  String.mk (trimChars s.data)

/-- Python `s.strip().lower()`. -/
def strTrimLower (s : String) : String :=
  String.mk (lowerChars (trimChars s.data))

/-- The description splitting used in both input modes (lines 239 and
468): split on `|`, strip each piece, drop the empty ones. -/
def splitDescriptions (s : String) : List String :=
  ((splitCh '|' s.data).map (fun d => String.mk (trimChars d))).filter (fun d => d ≠ "")

/-- Line 225: `positional_arg.split(',', 3)` — at most four parts. -/
def pySplitComma3 (s : String) : List String :=
  (splitChMax ',' 3 s.data).map String.mk

inductive ParseErr
  /-- fewer than 3 comma parts (line 227). -/
  | badFormat
  /-- type outside `valid_types` (line 242). -/
  | badType
  /-- scope outside `valid_scopes` (line 249). -/
  | badScope
  /-- empty description list (line 256). -/
  | emptyDescription
deriving DecidableEq

/-- Lines 202–259: `parse_comma_separated_format`. -/
def parse_comma_separated_format (positional_arg : String)
    (valid_types valid_scopes : List String) :
    Except ParseErr (String × String × List String × Option String) :=
  let parts := pySplitComma3 positional_arg
  if parts.length < 3 then .error .badFormat
  else
    let commit_type := strTrim (parts.getD 0 "")
    let scope := strTrim (parts.getD 1 "")
    let description_raw := strTrim (parts.getD 2 "")
    let body := if parts.length = 4 then some (strTrim (parts.getD 3 "")) else none
    let descriptions := splitDescriptions description_raw
    if valid_types.contains commit_type = false then .error .badType
    else if valid_scopes.contains scope = false then .error .badScope
    else if descriptions = [] then .error .emptyDescription
    else .ok (commit_type, scope, descriptions, body)

/-- Python `str(Path(f).parent)` for the relative paths git status
emits, except that the empty parent is kept as `""` here (callers map it
to `"."` or `"root"` as the source does). -/
def parentDirStr (f : String) : String :=
  String.mk (joinWith '/' ((splitCh '/' f.data).dropLast))

/-- Lines 172–180: the grouping key — parent directory, with root files
mapped to `"root"`. -/
def groupKey (f : String) : String :=
  let parent := parentDirStr f
  if parent = "" ∨ parent = "." then "root" else parent

/-- The `defaultdict(list)` append: extend the entry with this key, or
create it at the end (Python dict insertion order). -/
def insertGroup (k f : String) : List (String × List String) → List (String × List String)
  | [] => [(k, [f])]
  | (k₀, fs) :: rest =>
    if k₀ = k then (k₀, fs ++ [f]) :: rest
    else (k₀, fs) :: insertGroup k f rest

/-- Lines 153–184: `group_files_by_directory`. -/
def group_files_by_directory (files : List String) (use_wildcard : Bool) :
    List (String × List String) :=
  if use_wildcard then [("*", files)]
  else files.foldl (fun acc f => insertGroup (groupKey f) f acc) []

/-- All members of the groups carrying key `k`. -/
def collectGroup (gs : List (String × List String)) (k : String) : List String :=
  ((gs.filter (fun p => p.1 = k)).map (fun p => p.2)).flatten

/-- Lines 262–281: `create_commit_message`. -/
def create_commit_message (commit_type scope description : String)
    (body : Option String) : String :=
  let display_scope := if scope = "*" then "all" else scope
  let message := commit_type ++ "(" ++ display_scope ++ "): " ++ description
  match body with
  | some b => message ++ "\n\n" ++ b
  | none => message

/-- Lines 196–199: `confirm_action` — only a stripped, lower-cased `s`
confirms. -/
def confirm_action (response : String) : Bool :=
  strTrimLower response = "s"

/-- Line 98: the affirmative tokens of the branch-switch prompt. -/
def switchAccepts : List String :=
  ["s", "sim", "y", "yes"]

/-- Whether the branch-switch prompt reply is affirmative (line 98). -/
def acceptSwitch (response : String) : Bool :=
  switchAccepts.contains (strTrimLower response)

/-- Insertion step of a sort by a boolean comparator. -/
def insSorted {α : Type} (le : α → α → Bool) (x : α) : List α → List α
  | [] => [x]
  | q :: rest => if le x q then x :: q :: rest else q :: insSorted le x rest

/-- Insertion sort by a boolean comparator (models Python `sorted`). -/
def sortByB {α : Type} (le : α → α → Bool) (l : List α) : List α :=
  l.foldr (insSorted le) []

/-- Line 493: `sorted(groups.keys())`. -/
def sortKeys (ks : List String) : List String :=
  sortByB (fun a b => strLe a.data b.data) ks

/-- Line 302: `sorted(groups.items())` — keys are unique, so comparing
keys decides the order. -/
def sortGroups (gs : List (String × List String)) : List (String × List String) :=
  sortByB (fun p q => strLe p.1.data q.1.data) gs

/-- Line 311: `sorted({str(Path(f).parent) or '.' for f in files})`. -/
def stagingParents (files : List String) : List String :=
  sortKeys ((files.map (fun f =>
    let p := parentDirStr f
    if p = "" then "." else p)).dedup)

/-- A git command issued by `execute_commits` that mutates the
repository (staging, commit, or push). -/
inductive Mut
  | addU (dirs : List String)
  | add (files : List String)
  | commit (msg : String)
  | push
deriving DecidableEq

/-- Success of each git subprocess, per group key, plus the
`Path(f).exists()` filesystem query of line 320. -/
structure GitOracles where
  stageUOk : String → Bool
  stageOk : String → Bool
  commitOk : String → Bool
  pushOk : String → Bool
  fileExists : String → Bool

/-- Lines 302–351: the per-group loop of `execute_commits`, with
`group_idx` starting at 1.  Returns the issued mutating git commands and
the `(message, group)` pairs appended for fully successful groups; any
failed step logs the error and `continue`s to the next group. -/
def execGo (ox : GitOracles) (commit_type scope : String)
    (descriptions : List String) (body : Option String) :
    Nat → List (String × List String) → List Mut × List (String × String)
  | _, [] => ([], [])
  | group_idx, (group, files) :: rest =>
    let next := execGo ox commit_type scope descriptions body (group_idx + 1) rest
    let staged : List Mut × Bool :=
      if files = [] then ([], true)
      else
        let muts₁ := [Mut.addU (stagingParents files)]
        if ox.stageUOk group = false then (muts₁, false)
        else
          let existing := files.filter ox.fileExists
          if existing = [] then (muts₁, true)
          else if ox.stageOk group = false then (muts₁ ++ [Mut.add existing], false)
          else (muts₁ ++ [Mut.add existing], true)
    if staged.2 = false then (staged.1 ++ next.1, next.2)
    else
      let desc_idx := min (group_idx - 1) (descriptions.length - 1)
      let current_description := descriptions.getD desc_idx ""
      let commit_msg := create_commit_message commit_type scope current_description body
      if ox.commitOk group = false then
        (staged.1 ++ [Mut.commit commit_msg] ++ next.1, next.2)
      else if ox.pushOk group = false then
        (staged.1 ++ [Mut.commit commit_msg, Mut.push] ++ next.1, next.2)
      else
        (staged.1 ++ [Mut.commit commit_msg, Mut.push] ++ next.1,
          (commit_msg, group) :: next.2)

/-- Lines 284–351: `execute_commits` over the sorted groups. -/
def execute_commits (ox : GitOracles) (groups : List (String × List String))
    (commit_type scope : String) (descriptions : List String)
    (body : Option String) : List Mut × List (String × String) :=
  execGo ox commit_type scope descriptions body 1 (sortGroups groups)

/-- The claim's notion of a fully successful group: staging (both `git
add` calls), commit, and push all exit zero. -/
def groupFullSuccess (ox : GitOracles) (group : String) (files : List String) : Bool :=
  (files = [] || (ox.stageUOk group &&
    (files.filter ox.fileExists = [] || ox.stageOk group)))
  && ox.commitOk group && ox.pushOk group

/-- Lines 493–498: the preview loop's description choice for each
sorted group, with `enumerate(.., 1)` and
`desc_idx = min(idx - 1, len(descriptions) - 1)`. -/
def previewGo (descriptions : List String) : Nat → List String → List String
  | _, [] => []
  | idx, _ :: rest =>
    descriptions.getD (min (idx - 1) (descriptions.length - 1)) ""
      :: previewGo descriptions (idx + 1) rest

/-- The description assigned to each group of the preview, in sorted
key order. -/
def previewDescs (groupKeys : List String) (descriptions : List String) : List String :=
  previewGo descriptions 1 (sortKeys groupKeys)

/-! ## git-develop-commit.sh: the `main` procedure (lines 369–514)

The Python locals relevant to the claims are modelled explicitly.  In
the positional branch (line 449) the parse result is unpacked into the
name `description`, while in the flags branch (line 468) the list is
bound to the name `descriptions`; the preview loop (line 496) and the
`execute_commits` call (line 511) read the name `descriptions`.  Both
optional fields of `ParsedBindings` record which of the two names is
actually bound, so a read of an unbound name surfaces as Python's
`NameError`.
-/

/-- The argparse results (line 425); `none` = flag not supplied. -/
structure MainArgs where
  argType : Option String
  argScope : Option String
  argDescription : Option String
  argBody : Option String
  commit_string : Option String

/-- The local bindings produced by lines 447–469. -/
structure ParsedBindings where
  commit_type : String
  scope : String
  /-- bound only by the positional branch (line 449). -/
  description : Option (List String)
  /-- bound only by the flags branch (line 468). -/
  descriptions : Option (List String)
  body : Option String

inductive MainErr
  /-- line 431: both input formats supplied. -/
  | conflictBoth
  /-- line 438: neither input format supplied. -/
  | noArguments
  /-- line 454: `parse_comma_separated_format` raised `ValueError`. -/
  | parseFailed (e : ParseErr)
  /-- line 459: flags mode with a missing mandatory flag. -/
  | missingFlagValues
  /-- lines 88, 105: a git call of the branch check failed. -/
  | branchCheckFailed
  /-- line 98: the user declined to switch to develop. -/
  | switchDeclined
  /-- line 124: clean working tree, nothing to commit. -/
  | noModifiedFiles
  /-- line 496: the name `descriptions` is read but unbound. -/
  | nameErrorDescriptions
deriving DecidableEq

inductive MainOutcome
  /-- line 507: the user declined the commit confirmation. -/
  | cancelled
  /-- line 511–514: the batch ran; carries `execute_commits`' result. -/
  | completed (commits : List (String × String))
deriving DecidableEq

/-- Lines 427–444: input-mode detection and mutual exclusion.  Note that
`has_flags` looks only at type, scope and description (line 428). -/
def mainArgCheck (args : MainArgs) : Option MainErr :=
  let has_flags := args.argType.isSome || args.argScope.isSome || args.argDescription.isSome
  let has_positional := args.commit_string.isSome
  if has_flags && has_positional then some .conflictBoth
  else if !has_flags && !has_positional then some .noArguments
  else none

/-- Lines 447–469: build the local bindings of `main`. -/
def mainParse (args : MainArgs) : Except MainErr ParsedBindings :=
  if args.commit_string.isSome then
    match parse_comma_separated_format (args.commit_string.getD "") VALID_TYPES VALID_SCOPES with
    | .error e => .error (.parseFailed e)
    | .ok (commit_type, scope, description, body) =>
      .ok ⟨commit_type, scope, some description, none, body⟩
  else
    match args.argType, args.argScope, args.argDescription with
    | some t, some s, some d =>
      .ok ⟨t, s, none, some (splitDescriptions d), args.argBody⟩
    | _, _, _ => .error .missingFlagValues

/-- Lines 369–514: the `main` procedure, from argument validation to the
batch execution.  `currentBranch`, `switchResponse`, `checkoutOk`,
`files` and `confirmResponse` stand for the environment answers (git
queries and interactive input).  Returns the mutating git commands
issued (staging, commit, push) together with the outcome. -/
def mainRun (args : MainArgs) (currentBranch switchResponse : String)
    (checkoutOk : Bool) (files : List String) (confirmResponse : String)
    (ox : GitOracles) : List Mut × Except MainErr MainOutcome :=
  match mainArgCheck args with
  | some e => ([], .error e)
  | none =>
    match mainParse args with
    | .error e => ([], .error e)
    | .ok b =>
      -- check_and_switch_to_develop (lines 84–113)
      if currentBranch ≠ "develop" ∧ acceptSwitch switchResponse = false then
        ([], .error .switchDeclined)
      else if currentBranch ≠ "develop" ∧ checkoutOk = false then
        ([], .error .branchCheckFailed)
      -- check_git_status (lines 116–129)
      else if files = [] then ([], .error .noModifiedFiles)
      else
        let use_wildcard := b.scope = "*"
        let groups := group_files_by_directory files use_wildcard
        -- preview loop (lines 493–502): its body reads `descriptions`
        if (sortKeys (groups.map (fun p => p.1))) ≠ [] ∧ b.descriptions = none then
          ([], .error .nameErrorDescriptions)
        else if confirm_action confirmResponse = false then
          ([], .ok .cancelled)
        else
          let r := execute_commits ox groups b.commit_type b.scope
            (b.descriptions.getD []) b.body
          (r.1, .ok (.completed r.2))

/-! ## Properties of the semantic version order -/

/-- Propositional reading of `semverLt`. -/
def semverLtP (x y : Nat × Nat × Nat) : Prop :=
  x.1 < y.1 ∨ (x.1 = y.1 ∧ (x.2.1 < y.2.1 ∨ (x.2.1 = y.2.1 ∧ x.2.2 < y.2.2)))

lemma semverLt_iff (x y : Nat × Nat × Nat) : semverLt x y = true ↔ semverLtP x y := by
  simp [semverLt, semverLtP]

lemma semverLt_false_iff (x y : Nat × Nat × Nat) :
    semverLt x y = false ↔ ¬ semverLtP x y := by
  rw [← semverLt_iff]
  cases h : semverLt x y <;> simp

lemma semverLt_irrefl (x : Nat × Nat × Nat) : semverLt x x = false := by
  rw [semverLt_false_iff]
  rcases x with ⟨a, b, c⟩
  simp [semverLtP]

lemma semverLt_conn (x y : Nat × Nat × Nat)
    (h₁ : semverLt x y = false) (h₂ : semverLt y x = false) : x = y := by
  rw [semverLt_false_iff] at h₁ h₂
  rcases x with ⟨a, b, c⟩
  rcases y with ⟨d, e, f⟩
  simp only [semverLtP, not_or, not_and, not_lt] at h₁ h₂
  have : a = d ∧ b = e ∧ c = f := by
    rcases h₁ with ⟨h₁₁, h₁₂⟩
    rcases h₂ with ⟨h₂₁, h₂₂⟩
    omega
  simp [this.1, this.2.1, this.2.2]

lemma semverLt_shift_left (u a v : Nat × Nat × Nat)
    (h₁ : semverLt a v = true) (h₂ : semverLt u v = false) :
    semverLt u a = false := by
  rw [semverLt_iff] at h₁
  rw [semverLt_false_iff] at h₂ ⊢
  rcases u with ⟨a₁, a₂, a₃⟩
  rcases a with ⟨b₁, b₂, b₃⟩
  rcases v with ⟨c₁, c₂, c₃⟩
  simp only [semverLtP, not_or, not_and, not_lt] at *
  omega

lemma semverLt_shift_right (u a v : Nat × Nat × Nat)
    (h₁ : semverLt a v = false) (h₂ : semverLt u a = false) :
    semverLt u v = false := by
  rw [semverLt_false_iff] at h₁ h₂ ⊢
  rcases u with ⟨a₁, a₂, a₃⟩
  rcases a with ⟨b₁, b₂, b₃⟩
  rcases v with ⟨c₁, c₂, c₃⟩
  simp only [semverLtP, not_or, not_and, not_lt] at *
  omega

/-- The fold of `lastSemverTag` computes a maximum of the parsed tags. -/
lemma semverMax_go (l : List (Nat × Nat × Nat)) :
    ∀ a : Nat × Nat × Nat, ∃ u,
      l.foldl semverMaxStep (some a) = some u ∧ (u = a ∨ u ∈ l) ∧
      semverLt u a = false ∧ ∀ v ∈ l, semverLt u v = false := by
  induction l with
  | nil =>
    intro a
    exact ⟨a, rfl, Or.inl rfl, semverLt_irrefl a, by simp⟩
  | cons v t ih =>
    intro a
    obtain ⟨u, hfold, hmem, hua, hall⟩ := ih (if semverLt a v then v else a)
    by_cases hav : semverLt a v = true
    · refine ⟨u, ?_, ?_, ?_, ?_⟩
      · simpa [List.foldl, semverMaxStep, hav] using hfold
      · rcases hmem with h | h
        · rw [if_pos hav] at h
          exact Or.inr (h ▸ List.mem_cons_self v t)
        · exact Or.inr (List.mem_cons_of_mem _ h)
      · exact semverLt_shift_left u a v hav (by simpa [hav] using hua)
      · intro w hw
        rcases List.mem_cons.mp hw with h | h
        · subst h; simpa [hav] using hua
        · exact hall w h
    · rw [Bool.not_eq_true] at hav
      refine ⟨u, ?_, ?_, ?_, ?_⟩
      · simpa [List.foldl, semverMaxStep, hav] using hfold
      · rcases hmem with h | h
        · left; simpa [hav] using h
        · right; right; exact h
      · simpa [hav] using hua
      · intro w hw
        rcases List.mem_cons.mp hw with h | h
        · subst h
          exact semverLt_shift_right u a w hav (by simpa [hav] using hua)
        · exact hall w h

/-- Claim C3: the next release tag is `v0.0.1` when no existing tag
matches `v<major>.<minor>.<patch>`, and otherwise the highest matching
tag with only its patch component incremented. -/
theorem release_next_tag_spec (tags : List String) :
    ((∀ t ∈ tags, parseSemverTag t = none) → computeNextTag tags = "v0.0.1") ∧
    (∀ M m p, (M, m, p) ∈ tags.filterMap parseSemverTag →
      (∀ v ∈ tags.filterMap parseSemverTag, semverLt (M, m, p) v = false) →
      computeNextTag tags
        = "v" ++ toString M ++ "." ++ toString m ++ "." ++ toString (p + 1)) := by
  constructor
  · intro hnone
    have hnil : tags.filterMap parseSemverTag = [] := by
      simp only [List.filterMap_eq_nil_iff]
      exact hnone
    simp only [computeNextTag, lastSemverTag, hnil, List.foldl_nil]
    decide
  · intro M m p hmem hmax
    rcases hl : tags.filterMap parseSemverTag with _ | ⟨w, t⟩
    · rw [hl] at hmem; simp at hmem
    · obtain ⟨u, hfold, humem, hua, hall⟩ := semverMax_go t w
      have hlast : lastSemverTag tags = some u := by
        simp [lastSemverTag, hl, List.foldl, semverMaxStep, hfold]
      have hu_in : u ∈ tags.filterMap parseSemverTag := by
        rw [hl]
        rcases humem with h | h
        · subst h; exact List.mem_cons_self _ _
        · exact List.mem_cons_of_mem _ h
      have h₁ : semverLt (M, m, p) u = false := hmax u hu_in
      have h₂ : semverLt u (M, m, p) = false := by
        rw [hl] at hmem
        rcases List.mem_cons.mp hmem with h | h
        · rw [← h] at hua; exact hua
        · exact hall _ h
      have : u = (M, m, p) := semverLt_conn u (M, m, p) h₂ h₁
      subst this
      simp [computeNextTag, hlast, renderSemverTag]

/-- Witness for claim C3 at concrete tag lists: no semver tag at all
yields `v0.0.1`, and highest `v1.2.3` yields `v1.2.4`. -/
theorem release_next_tag_spec_witness :
    computeNextTag ["banana", "release-2024-01-01"] = "v0.0.1" ∧
    computeNextTag ["v0.9.9", "v1.2.3", "zeta"] = "v1.2.4" := by
  constructor
  · exact (release_next_tag_spec ["banana", "release-2024-01-01"]).1 (by decide)
  · have h := (release_next_tag_spec ["v0.9.9", "v1.2.3", "zeta"]).2 1 2 3
      (by decide) (by decide)
    rw [h]
    decide

/-! ## Claim C1: tag phase only after merge and push, no rollback -/

/-- Claim C1: the semantic-tag steps run only after the merge into main
and the push of main have succeeded, and any tag-phase failure
(`TagExistsError` included) leaves the merged, pushed release-branch
state in place: no rollback of the merge or the push, and no tag is
pushed to origin. -/
theorem release_tag_phase_no_rollback
    (mergeOk pushOk tagCreateOk tagPushOk : Bool) (s : RepoState) (e : ReleaseErr)
    (habort : (releaseRun mergeOk pushOk tagCreateOk tagPushOk true s).2 = some e)
    (hphase : e ∈ tagPhaseErrs) :
    mergeOk = true ∧ pushOk = true ∧
    (releaseRun mergeOk pushOk tagCreateOk tagPushOk true s).1.mergedIntoMain = true ∧
    (releaseRun mergeOk pushOk tagCreateOk tagPushOk true s).1.originMainUpdated = true ∧
    (releaseRun mergeOk pushOk tagCreateOk tagPushOk true s).1.originTags = s.originTags ∧
    (e = .tagExists →
      (releaseRun mergeOk pushOk tagCreateOk tagPushOk true s).1
        = { s with mergedIntoMain := true, originMainUpdated := true }) := by
  cases mergeOk
  · simp [releaseRun] at habort
    subst habort
    simp [tagPhaseErrs] at hphase
  · cases pushOk
    · simp [releaseRun] at habort
      subst habort
      simp [tagPhaseErrs] at hphase
    · by_cases hc : computeNextTag s.tags ∈ s.tags
      · refine ⟨rfl, rfl, ?_, ?_, ?_, ?_⟩ <;> simp [releaseRun, hc]
      · cases tagCreateOk
        · refine ⟨rfl, rfl, ?_, ?_, ?_, ?_⟩ <;> simp [releaseRun, hc]
        · cases tagPushOk
          · simp [releaseRun, hc] at habort
            subst habort
            refine ⟨rfl, rfl, ?_, ?_, ?_, ?_⟩ <;> simp [releaseRun, hc]
          · simp [releaseRun, hc] at habort

/-- Witness for claim C1: with a failing tag push, the run aborts in the
tag phase while main stays merged and pushed. -/
theorem release_tag_phase_no_rollback_witness :
    (releaseRun true true true false true ⟨false, false, [], []⟩).1.mergedIntoMain = true ∧
    (releaseRun true true true false true ⟨false, false, [], []⟩).1.originMainUpdated = true ∧
    (releaseRun true true true false true ⟨false, false, [], []⟩).1.originTags = [] := by
  have h := release_tag_phase_no_rollback true true true false ⟨false, false, [], []⟩
    .tagPushFail (by decide) (by decide)
  exact ⟨h.2.2.1, h.2.2.2.1, h.2.2.2.2.1⟩

/-! ## Claim C2: the tag rebuilder's sequential tags -/

lemma retagFrom_length (l : List String) : ∀ i, (retagFrom i l).length = l.length := by
  induction l with
  | nil => intro i; rfl
  | cons h t ih => intro i; simp [retagFrom, ih]

lemma retagFrom_names (l : List String) :
    ∀ i, (retagFrom i l).map (fun p => p.1)
      = (List.range l.length).map (fun k => "v0.0." ++ toString (i + k)) := by
  induction l with
  | nil => intro i; rfl
  | cons h t ih =>
    intro i
    simp only [retagFrom, List.map_cons, List.length_cons, List.range_succ_eq_map,
      List.map_map]
    rw [ih (i + 1)]
    refine List.cons_eq_cons.mpr ⟨by simp, ?_⟩
    apply List.map_congr_left
    intro k _
    simp only [Function.comp_apply]
    have hik : i + 1 + k = i + k.succ := by omega
    rw [hik]

lemma retagFrom_msgs (l : List String) :
    ∀ i, (retagFrom i l).map (fun p => p.2.1)
      = (List.range l.length).map (fun k => "Release v0.0." ++ toString (i + k)) := by
  induction l with
  | nil => intro i; rfl
  | cons h t ih =>
    intro i
    simp only [retagFrom, List.map_cons, List.length_cons, List.range_succ_eq_map,
      List.map_map]
    rw [ih (i + 1)]
    refine List.cons_eq_cons.mpr ⟨by simp, ?_⟩
    apply List.map_congr_left
    intro k _
    simp only [Function.comp_apply]
    have hik : i + 1 + k = i + k.succ := by omega
    rw [hik]

lemma retagFrom_hashes (l : List String) :
    ∀ i, (retagFrom i l).map (fun p => p.2.2) = l := by
  induction l with
  | nil => intro i; rfl
  | cons h t ih => intro i; simp [retagFrom, ih]

/-- Claim C2: after the (already performed) deletion of every
`release-*` and `v*` tag, a history with `N ≥ 1` classified release
commits gets exactly the annotated tags `v0.0.1 .. v0.0.N`, 1-indexed in
walk order, each with message `Release v0.0.i` on the i-th classified
commit; with `N = 0` the run aborts fatally creating no tag. -/
theorem retag_sequential_spec (specials : List String) (history : List Commit)
    (tags : List String) :
    (∀ t ∈ tags,
      (leadsWith "release-".data t.data || leadsWith "v".data t.data) = true →
      t ∉ (retagRun specials history tags).keptTags) ∧
    (releaseCommits specials history = [] →
      (retagRun specials history tags).aborted = true ∧
      (retagRun specials history tags).created = []) ∧
    (releaseCommits specials history ≠ [] →
      (retagRun specials history tags).aborted = false ∧
      (retagRun specials history tags).created.length
        = (releaseCommits specials history).length ∧
      (retagRun specials history tags).created.map (fun p => p.1)
        = (List.range (releaseCommits specials history).length).map
            (fun k => "v0.0." ++ toString (k + 1)) ∧
      (retagRun specials history tags).created.map (fun p => p.2.1)
        = (List.range (releaseCommits specials history).length).map
            (fun k => "Release v0.0." ++ toString (k + 1)) ∧
      (retagRun specials history tags).created.map (fun p => p.2.2)
        = releaseCommits specials history) := by
  refine ⟨?_, ?_, ?_⟩
  · intro t hmem hpat hkept
    simp only [retagRun] at hkept
    by_cases he : (releaseCommits specials history).isEmpty = true
    · rw [if_pos he] at hkept
      have := (List.mem_filter.mp hkept).2
      rw [hpat] at this
      simp at this
    · rw [if_neg he] at hkept
      have := (List.mem_filter.mp hkept).2
      rw [hpat] at this
      simp at this
  · intro hnil
    have he : (releaseCommits specials history).isEmpty = true := by
      rw [hnil]; rfl
    constructor <;> simp [retagRun, he]
  · intro hne
    have he : (releaseCommits specials history).isEmpty = false := by
      rcases h : releaseCommits specials history with _ | _
      · exact absurd h hne
      · rfl
    refine ⟨by simp [retagRun, he], by simp [retagRun, he, retagFrom_length], ?_, ?_, ?_⟩
    · simp only [retagRun, he, Bool.false_eq_true, if_false]
      rw [retagFrom_names]
      apply List.map_congr_left
      intro k _
      rw [Nat.add_comm 1 k]
    · simp only [retagRun, he, Bool.false_eq_true, if_false]
      rw [retagFrom_msgs]
      apply List.map_congr_left
      intro k _
      rw [Nat.add_comm 1 k]
    · simp only [retagRun, he, Bool.false_eq_true, if_false]
      exact retagFrom_hashes _ 1

/-- Witness for claim C2 on a concrete three-commit history: one special
hash, one ordinary commit, one `release` subject. -/
theorem retag_sequential_spec_witness :
    (retagRun SPECIAL_RELEASE_HASHES
        [⟨"0dab4c5a45cc07eddcbf4bd17519f48c43a0cc15", "initial import"⟩,
         ⟨"aaaa", "feat(dag): x"⟩,
         ⟨"bbbb", "chore(release): integrate"⟩]
        ["release-2024-01-01", "v0.0.9", "zeta"]).created.map (fun p => p.1)
      = ["v0.0.1", "v0.0.2"] ∧
    "release-2024-01-01"
      ∉ (retagRun SPECIAL_RELEASE_HASHES
          [⟨"0dab4c5a45cc07eddcbf4bd17519f48c43a0cc15", "initial import"⟩,
           ⟨"aaaa", "feat(dag): x"⟩,
           ⟨"bbbb", "chore(release): integrate"⟩]
          ["release-2024-01-01", "v0.0.9", "zeta"]).keptTags := by
  have h := retag_sequential_spec SPECIAL_RELEASE_HASHES
    [⟨"0dab4c5a45cc07eddcbf4bd17519f48c43a0cc15", "initial import"⟩,
     ⟨"aaaa", "feat(dag): x"⟩,
     ⟨"bbbb", "chore(release): integrate"⟩]
    ["release-2024-01-01", "v0.0.9", "zeta"]
  refine ⟨?_, h.1 "release-2024-01-01" (by decide) (by decide)⟩
  have h₃ := h.2.2 (by decide)
  rw [h₃.2.2.1]
  decide

/-! ## Claim C7: the comma-delimited specification parser -/

lemma pySplitComma3_length_le (s : String) : (pySplitComma3 s).length ≤ 4 := by
  simp only [pySplitComma3, splitChMax, List.length_map]
  split
  · omega
  · simp only [List.length_append, List.length_take, List.length_cons, List.length_nil]
    omega

/-- Claim C7: the positional parser splits on comma into at most 4 parts
(the body may contain commas), fails with fewer than 3 parts, and any
accepted result has a valid type, a valid scope, and the non-empty
trimmed `|`-split description list; `"feat,utils,Add retry"` and
`"feat,dag,A|B"` parse as the spec states. -/
theorem parse_comma_separated_spec :
    (∀ s : String, (pySplitComma3 s).length ≤ 4) ∧
    (∀ (s : String) (vt vs : List String), (pySplitComma3 s).length < 3 →
      parse_comma_separated_format s vt vs = .error .badFormat) ∧
    (∀ (s : String) (vt vs : List String) (ct sc : String) (ds : List String)
       (b : Option String),
      parse_comma_separated_format s vt vs = .ok (ct, sc, ds, b) →
      vt.contains ct = true ∧ vs.contains sc = true ∧ ds ≠ [] ∧
      ds = splitDescriptions (strTrim ((pySplitComma3 s).getD 2 "")) ∧
      (b = none ↔ (pySplitComma3 s).length ≠ 4)) ∧
    parse_comma_separated_format "feat,utils,Add retry" VALID_TYPES VALID_SCOPES
      = .ok ("feat", "utils", ["Add retry"], none) ∧
    parse_comma_separated_format "feat,dag,A|B" VALID_TYPES VALID_SCOPES
      = .ok ("feat", "dag", ["A", "B"], none) := by
  refine ⟨pySplitComma3_length_le, ?_, ?_, by decide, by decide⟩
  · intro s vt vs hlen
    simp only [parse_comma_separated_format]
    rw [if_pos hlen]
  · intro s vt vs ct sc ds b hok
    simp only [parse_comma_separated_format] at hok
    by_cases h₁ : (pySplitComma3 s).length < 3
    · rw [if_pos h₁] at hok
      exact absurd hok (by simp)
    · rw [if_neg h₁] at hok
      by_cases h₂ : vt.contains (strTrim ((pySplitComma3 s).getD 0 "")) = false
      · rw [if_pos h₂] at hok
        exact absurd hok (by simp)
      · rw [if_neg h₂] at hok
        by_cases h₃ : vs.contains (strTrim ((pySplitComma3 s).getD 1 "")) = false
        · rw [if_pos h₃] at hok
          exact absurd hok (by simp)
        · rw [if_neg h₃] at hok
          by_cases h₄ : splitDescriptions (strTrim ((pySplitComma3 s).getD 2 "")) = []
          · rw [if_pos h₄] at hok
            exact absurd hok (by simp)
          · rw [if_neg h₄] at hok
            simp only [Except.ok.injEq, Prod.mk.injEq] at hok
            obtain ⟨hct, hsc, hds, hb⟩ := hok
            subst hct; subst hsc; subst hds; subst hb
            rw [Bool.not_eq_false] at h₂ h₃
            refine ⟨h₂, h₃, h₄, rfl, ?_⟩
            by_cases h₅ : (pySplitComma3 s).length = 4
            · simp [h₅]
            · simp [h₅]

/-- Witness for claim C7 at the spec's concrete inputs. -/
theorem parse_comma_separated_spec_witness :
    parse_comma_separated_format "feat,utils" VALID_TYPES VALID_SCOPES
      = .error .badFormat ∧
    VALID_TYPES.contains "feat" = true ∧ VALID_SCOPES.contains "dag" = true ∧
    (["A", "B"] : List String) ≠ [] := by
  have h₂ := parse_comma_separated_spec.2.1 "feat,utils" VALID_TYPES VALID_SCOPES
    (by decide)
  have h₃ := parse_comma_separated_spec.2.2.1 "feat,dag,A|B" VALID_TYPES VALID_SCOPES
    "feat" "dag" ["A", "B"] none (by decide)
  exact ⟨h₂, h₃.1, h₃.2.1, h₃.2.2.1⟩

/-! ## Claim C8: grouping is a strict partition -/

lemma insertGroup_keys (k f : String) :
    ∀ gs : List (String × List String),
      (insertGroup k f gs).map (fun p => p.1)
        = if k ∈ gs.map (fun p => p.1) then gs.map (fun p => p.1)
          else gs.map (fun p => p.1) ++ [k] := by
  intro gs
  induction gs with
  | nil => simp [insertGroup]
  | cons p rest ih =>
    rcases p with ⟨k₀, fs⟩
    by_cases h : k₀ = k
    · subst h
      simp [insertGroup]
    · have h' : ¬(k = k₀) := fun hh => h hh.symm
      simp only [insertGroup, if_neg h, List.map_cons, ih, List.mem_cons]
      by_cases hm : k ∈ rest.map (fun p => p.1)
      · simp [hm, h']
      · simp [hm, h']

lemma insertGroup_keys_nodup (k f : String) (gs : List (String × List String))
    (h : (gs.map (fun p => p.1)).Nodup) :
    ((insertGroup k f gs).map (fun p => p.1)).Nodup := by
  rw [insertGroup_keys]
  split
  · exact h
  · next hm =>
    simp only [List.nodup_append, List.nodup_cons, List.not_mem_nil, not_false_iff,
      List.nodup_nil, and_true, true_and]
    refine ⟨h, ?_⟩
    intro a ha hb
    simp only [List.mem_singleton] at hb
    subst hb
    exact hm ha

lemma collect_not_mem (k : String) :
    ∀ gs : List (String × List String), k ∉ gs.map (fun p => p.1) →
      collectGroup gs k = [] := by
  intro gs
  induction gs with
  | nil => intro _; rfl
  | cons p rest ih =>
    rcases p with ⟨k₀, fs⟩
    intro h
    simp only [List.map_cons, List.mem_cons, not_or] at h
    have hne : ¬(k₀ = k) := fun hh => h.1 hh.symm
    simp only [collectGroup, List.filter_cons, decide_eq_true_eq]
    rw [if_neg hne]
    exact ih h.2

lemma collect_cons (k₀ : String) (fs : List String)
    (rest : List (String × List String)) (k : String) :
    collectGroup ((k₀, fs) :: rest) k
      = (if k₀ = k then fs else []) ++ collectGroup rest k := by
  by_cases h : k₀ = k
  · simp [collectGroup, List.filter_cons, h]
  · simp [collectGroup, List.filter_cons, h]

lemma collect_insertGroup (k f k' : String) :
    ∀ gs : List (String × List String), (gs.map (fun p => p.1)).Nodup →
      collectGroup (insertGroup k f gs) k'
        = collectGroup gs k' ++ (if k' = k then [f] else []) := by
  intro gs
  induction gs with
  | nil =>
    intro _
    by_cases h : k' = k
    · subst h
      simp [insertGroup, collect_cons, collectGroup]
    · have h' : ¬(k = k') := fun hh => h hh.symm
      simp [insertGroup, collect_cons, collectGroup, h, h']
  | cons p rest ih =>
    rcases p with ⟨k₀, fs⟩
    intro hnd
    simp only [List.map_cons, List.nodup_cons] at hnd
    by_cases h : k₀ = k
    · subst h
      have hstep : insertGroup k₀ f ((k₀, fs) :: rest) = (k₀, fs ++ [f]) :: rest := by
        simp [insertGroup]
      rw [hstep, collect_cons, collect_cons]
      by_cases h' : k₀ = k'
      · subst h'
        have hrest : collectGroup rest k₀ = [] := collect_not_mem _ _ hnd.1
        simp [hrest]
      · have h'' : ¬(k' = k₀) := fun hh => h' hh.symm
        simp [h', h'']
    · simp only [insertGroup, if_neg h]
      rw [collect_cons, collect_cons, ih hnd.2, List.append_assoc]

lemma foldl_insert_keys_nodup :
    ∀ (files : List String) (acc : List (String × List String)),
      (acc.map (fun p => p.1)).Nodup →
      (((files.foldl (fun a f => insertGroup (groupKey f) f a) acc)).map
        (fun p => p.1)).Nodup := by
  intro files
  induction files with
  | nil => intro acc h; exact h
  | cons f fs ih =>
    intro acc h
    simp only [List.foldl_cons]
    exact ih _ (insertGroup_keys_nodup _ _ _ h)

lemma collect_foldl (k : String) :
    ∀ (files : List String) (acc : List (String × List String)),
      (acc.map (fun p => p.1)).Nodup →
      collectGroup (files.foldl (fun a f => insertGroup (groupKey f) f a) acc) k
        = collectGroup acc k ++ files.filter (fun f => groupKey f = k) := by
  intro files
  induction files with
  | nil => intro acc _; simp
  | cons f fs ih =>
    intro acc h
    simp only [List.foldl_cons]
    rw [ih _ (insertGroup_keys_nodup _ _ _ h)]
    rw [collect_insertGroup _ _ _ _ h]
    rw [List.filter_cons]
    by_cases hk : groupKey f = k
    · simp [hk, List.append_assoc]
    · have hk' : ¬(k = groupKey f) := fun hh => hk hh.symm
      simp [hk, hk']

/-- Claim C8: with the wildcard flag the grouping is the single group
`"*"` holding all paths; without it, it is a strict partition — group
keys are pairwise distinct, the group keyed `k` holds exactly the input
files whose parent-directory key is `k`, and every input file lies in
exactly one group, the one keyed by its parent directory (or `root`). -/
theorem grouping_partition_spec (files : List String) :
    group_files_by_directory files true = [("*", files)] ∧
    ((group_files_by_directory files false).map (fun p => p.1)).Nodup ∧
    (∀ k, collectGroup (group_files_by_directory files false) k
      = files.filter (fun f => groupKey f = k)) ∧
    (∀ f ∈ files, ∃ fs,
      (groupKey f, fs) ∈ group_files_by_directory files false ∧ f ∈ fs ∧
      ∀ k fs', (k, fs') ∈ group_files_by_directory files false → f ∈ fs' →
        k = groupKey f) := by
  have hnodup : ((group_files_by_directory files false).map (fun p => p.1)).Nodup := by
    simp only [group_files_by_directory, Bool.false_eq_true, if_false]
    exact foldl_insert_keys_nodup files [] (by simp)
  have hcollect : ∀ k, collectGroup (group_files_by_directory files false) k
      = files.filter (fun f => groupKey f = k) := by
    intro k
    simp only [group_files_by_directory, Bool.false_eq_true, if_false]
    rw [collect_foldl k files [] (by simp)]
    rfl
  refine ⟨by simp [group_files_by_directory], hnodup, hcollect, ?_⟩
  intro f hf
  have hmem : f ∈ collectGroup (group_files_by_directory files false) (groupKey f) := by
    rw [hcollect]
    exact List.mem_filter.mpr ⟨hf, by simp⟩
  simp only [collectGroup, List.mem_flatten, List.mem_map] at hmem
  obtain ⟨l, ⟨p, hpfil, hpl⟩, hfl⟩ := hmem
  have hpg := List.mem_filter.mp hpfil
  have hkey : p.1 = groupKey f := by
    have := hpg.2
    simpa using this
  refine ⟨p.2, ?_, hpl ▸ hfl, ?_⟩
  · have : p = (groupKey f, p.2) := by
      rw [← hkey]
    exact this ▸ hpg.1
  · intro k fs' hmem' hf'
    have hin : f ∈ collectGroup (group_files_by_directory files false) k := by
      simp only [collectGroup, List.mem_flatten, List.mem_map]
      exact ⟨fs', ⟨(k, fs'), List.mem_filter.mpr ⟨hmem', by simp⟩, rfl⟩, hf'⟩
    rw [hcollect] at hin
    have := (List.mem_filter.mp hin).2
    simpa [eq_comm] using this

/-- Witness for claim C8 on a concrete changed-file list with two
directories and a root file. -/
theorem grouping_partition_spec_witness :
    group_files_by_directory ["a/x", "README.md", "a/z", "b/y"] true
      = [("*", ["a/x", "README.md", "a/z", "b/y"])] ∧
    collectGroup (group_files_by_directory ["a/x", "README.md", "a/z", "b/y"] false) "a"
      = ["a/x", "a/z"] ∧
    (∃ fs, ("root", fs) ∈ group_files_by_directory ["a/x", "README.md", "a/z", "b/y"] false
      ∧ "README.md" ∈ fs) := by
  have h := grouping_partition_spec ["a/x", "README.md", "a/z", "b/y"]
  refine ⟨h.1, ?_, ?_⟩
  · rw [h.2.2.1 "a"]
    decide
  · obtain ⟨fs, hmem, hin, _⟩ := h.2.2.2 "README.md" (by decide)
    exact ⟨fs, by simpa using hmem, hin⟩

/-! ## Sorting lemmas for the preview and execution order -/

lemma strLe_total : ∀ a b : List Char, strLe a b = true ∨ strLe b a = true := by
  intro a
  induction a with
  | nil => intro b; left; rfl
  | cons x xs ih =>
    intro b
    cases b with
    | nil => right; rfl
    | cons y ys =>
      by_cases h₁ : x.toNat < y.toNat
      · left; simp [strLe, h₁]
      · by_cases h₂ : y.toNat < x.toNat
        · right; simp [strLe, h₂]
        · rcases ih ys with h | h
          · left; simp [strLe, h₁, h₂, h]
          · right; simp [strLe, h₁, h₂, h]

lemma strLe_trans : ∀ a b c : List Char,
    strLe a b = true → strLe b c = true → strLe a c = true := by
  intro a
  induction a with
  | nil => intro b c _ _; rfl
  | cons x xs ih =>
    intro b c hab hbc
    cases b with
    | nil => simp [strLe] at hab
    | cons y ys =>
      cases c with
      | nil => simp [strLe] at hbc
      | cons z zs =>
        simp only [strLe] at hab hbc ⊢
        by_cases hxy : x.toNat < y.toNat
        · by_cases hyz : y.toNat < z.toNat
          · have : x.toNat < z.toNat := Nat.lt_trans hxy hyz
            simp [this]
          · by_cases hzy : z.toNat < y.toNat
            · simp [hyz, hzy] at hbc
            · have hyz' : y.toNat = z.toNat := by omega
              have : x.toNat < z.toNat := by omega
              simp [this]
        · by_cases hyx : y.toNat < x.toNat
          · simp [hxy, hyx] at hab
          · have hxy' : x.toNat = y.toNat := by omega
            by_cases hyz : y.toNat < z.toNat
            · have : x.toNat < z.toNat := by omega
              simp [this]
            · by_cases hzy : z.toNat < y.toNat
              · simp [hyz, hzy] at hbc
              · have : ¬ x.toNat < z.toNat := by omega
                have h' : ¬ z.toNat < x.toNat := by omega
                simp only [hxy, hyx, if_neg, ite_false] at hab
                simp only [hyz, hzy, if_neg, ite_false] at hbc
                simp [this, h', ih ys zs (by simpa [hxy, hyx] using hab)
                  (by simpa [hyz, hzy] using hbc)]

lemma insSorted_perm {α : Type} (le : α → α → Bool) (x : α) :
    ∀ l : List α, (insSorted le x l).Perm (x :: l) := by
  intro l
  induction l with
  | nil => simp [insSorted]
  | cons q rest ih =>
    by_cases h : le x q = true
    · simp [insSorted, h]
    · simp only [insSorted, h]
      rw [Bool.not_eq_true] at h
      simp only [h, Bool.false_eq_true, if_false]
      exact (ih.cons q).trans (List.Perm.swap x q rest)

lemma sortByB_perm {α : Type} (le : α → α → Bool) :
    ∀ l : List α, (sortByB le l).Perm l := by
  intro l
  induction l with
  | nil => simp [sortByB]
  | cons x rest ih =>
    simp only [sortByB, List.foldr_cons]
    exact (insSorted_perm le x _).trans (ih.cons x)

lemma insSorted_pairwise {α : Type} (le : α → α → Bool)
    (htot : ∀ a b, le a b = true ∨ le b a = true)
    (htrans : ∀ a b c, le a b = true → le b c = true → le a c = true)
    (x : α) :
    ∀ l : List α, List.Pairwise (fun a b => le a b = true) l →
      List.Pairwise (fun a b => le a b = true) (insSorted le x l) := by
  intro l
  induction l with
  | nil => intro _; simp [insSorted]
  | cons q rest ih =>
    intro hp
    rw [List.pairwise_cons] at hp
    by_cases h : le x q = true
    · simp only [insSorted, h, if_true]
      rw [List.pairwise_cons]
      refine ⟨?_, List.pairwise_cons.mpr hp⟩
      intro b hb
      rcases List.mem_cons.mp hb with hb | hb
      · exact hb ▸ h
      · exact htrans x q b h (hp.1 b hb)
    · simp only [insSorted, h, Bool.false_eq_true, if_false]
      rw [List.pairwise_cons]
      refine ⟨?_, ih hp.2⟩
      intro b hb
      have hqx : le q x = true := by
        rcases htot x q with ht | ht
        · exact absurd ht h
        · exact ht
      have := (insSorted_perm le x rest).mem_iff.mp hb
      rcases List.mem_cons.mp this with hb' | hb'
      · exact hb' ▸ hqx
      · exact hp.1 b hb'

lemma sortByB_pairwise {α : Type} (le : α → α → Bool)
    (htot : ∀ a b, le a b = true ∨ le b a = true)
    (htrans : ∀ a b c, le a b = true → le b c = true → le a c = true) :
    ∀ l : List α, List.Pairwise (fun a b => le a b = true) (sortByB le l) := by
  intro l
  induction l with
  | nil => simp [sortByB]
  | cons x rest ih =>
    simp only [sortByB, List.foldr_cons]
    exact insSorted_pairwise le htot htrans x _ ih

/-! ## Claim C5: sorted processing order and description fallback -/

lemma previewGo_get? (descriptions : List String) :
    ∀ (l : List String) (i p : Nat), p < l.length →
      (previewGo descriptions (i + 1) l).get? p
        = some (descriptions.getD (min (i + p) (descriptions.length - 1)) "") := by
  intro l
  induction l with
  | nil =>
    intro i p hp
    simp at hp
  | cons x rest ih =>
    intro i p hp
    cases p with
    | zero => simp [previewGo]
    | succ p' =>
      have hp' : p' < rest.length := by
        simpa using hp
      have := ih (i + 1) p' hp'
      simp only [previewGo, List.get?_cons_succ]
      rw [this]
      congr 2
      omega

/-- Claim C5: the preview processes the groups in lexicographically
sorted key order (a sorted permutation of the keys), and the group at
0-based position `p` receives description `min(p, count - 1)`: within
range that is description `p`, beyond it the last description. -/
theorem description_fallback_spec (descriptions : List String)
    (hne : descriptions ≠ []) (groupKeys : List String) (p : Nat) :
    List.Pairwise (fun a b => strLe a.data b.data = true) (sortKeys groupKeys) ∧
    (sortKeys groupKeys).Perm groupKeys ∧
    (p < descriptions.length → p < (sortKeys groupKeys).length →
      (previewDescs groupKeys descriptions).get? p = descriptions.get? p) ∧
    (descriptions.length ≤ p → p < (sortKeys groupKeys).length →
      (previewDescs groupKeys descriptions).get? p
        = some (descriptions.getLast hne)) := by
  refine ⟨?_, ?_, ?_, ?_⟩
  · exact sortByB_pairwise _ (fun a b => strLe_total a.data b.data)
      (fun a b c => strLe_trans a.data b.data c.data) groupKeys
  · exact sortByB_perm _ groupKeys
  · intro hlt hplen
    have h := previewGo_get? descriptions (sortKeys groupKeys) 0 p hplen
    rw [previewDescs, h]
    have hmin : min (0 + p) (descriptions.length - 1) = p := by omega
    rw [hmin]
    rw [List.getD_eq_get descriptions "" hlt, List.get?_eq_get hlt]
  · intro hge hplen
    have h := previewGo_get? descriptions (sortKeys groupKeys) 0 p hplen
    rw [previewDescs, h]
    have hlen : 0 < descriptions.length := List.length_pos.mpr hne
    have hmin : min (0 + p) (descriptions.length - 1) = descriptions.length - 1 := by
      omega
    rw [hmin]
    have hlt : descriptions.length - 1 < descriptions.length := by omega
    rw [List.getD_eq_get descriptions "" hlt, List.getLast_eq_get descriptions hne]

/-- Witness for claim C5: two descriptions, three groups — position 2
falls back to the last description, and the keys are processed as a
sorted permutation. -/
theorem description_fallback_spec_witness :
    (previewDescs ["b", "root", "a"] ["A", "B"]).get? 2 = some "B" ∧
    (sortKeys ["b", "root", "a"]).Perm ["b", "root", "a"] := by
  have h := description_fallback_spec ["A", "B"] (by decide) ["b", "root", "a"] 2
  refine ⟨?_, h.2.1⟩
  have h₄ := h.2.2.2 (by decide) (by decide)
  rw [h₄]
  decide

/-! ## Claim C4: per-group failure isolation in `execute_commits` -/

lemma execGo_commits (ox : GitOracles) (ct sc : String) (ds : List String)
    (b : Option String) :
    ∀ (l : List (String × List String)) (i : Nat),
      (execGo ox ct sc ds b i l).2
        = (List.enumFrom i l).filterMap
            (fun p => if groupFullSuccess ox p.2.1 p.2.2 = true then
              some (create_commit_message ct sc
                (ds.getD (min (p.1 - 1) (ds.length - 1)) "") b, p.2.1)
            else none) := by
  intro l
  induction l with
  | nil => intro i; rfl
  | cons g rest ih =>
    rcases g with ⟨group, files⟩
    intro i
    have hre : List.enumFrom i ((group, files) :: rest)
        = (i, (group, files)) :: List.enumFrom (i + 1) rest := rfl
    rw [hre, List.filterMap_cons]
    by_cases hf : files = []
    · by_cases hc : ox.commitOk group = false
      · simp [execGo, groupFullSuccess, hf, hc, ih]
      · by_cases hp : ox.pushOk group = false
        · simp [execGo, groupFullSuccess, hf, hc, hp, ih]
        · simp [execGo, groupFullSuccess, hf, hc, hp, ih]
    · by_cases hsu : ox.stageUOk group = false
      · simp [execGo, groupFullSuccess, hf, hsu, ih]
      · by_cases he : files.filter ox.fileExists = []
        · by_cases hc : ox.commitOk group = false
          · simp [execGo, groupFullSuccess, hf, hsu, he, hc, ih]
          · by_cases hp : ox.pushOk group = false
            · simp [execGo, groupFullSuccess, hf, hsu, he, hc, hp, ih]
            · simp [execGo, groupFullSuccess, hf, hsu, he, hc, hp, ih]
        · by_cases hso : ox.stageOk group = false
          · simp [execGo, groupFullSuccess, hf, hsu, he, hso, ih]
          · by_cases hc : ox.commitOk group = false
            · simp [execGo, groupFullSuccess, hf, hsu, he, hso, hc, ih]
            · by_cases hp : ox.pushOk group = false
              · simp [execGo, groupFullSuccess, hf, hsu, he, hso, hc, hp, ih]
              · simp [execGo, groupFullSuccess, hf, hsu, he, hso, hc, hp, ih]

/-- Claim C4: `execute_commits` processes every group of the sorted
sequence — a failing group is skipped while all later groups are still
processed — and returns exactly the (message, group-key) pairs of the
groups whose staging, commit, and push all succeeded. -/
theorem execute_commits_isolation (ox : GitOracles)
    (groups : List (String × List String)) (ct sc : String)
    (ds : List String) (b : Option String) :
    (execute_commits ox groups ct sc ds b).2
      = (List.enumFrom 1 (sortGroups groups)).filterMap
          (fun p => if groupFullSuccess ox p.2.1 p.2.2 = true then
            some (create_commit_message ct sc
              (ds.getD (min (p.1 - 1) (ds.length - 1)) "") b, p.2.1)
          else none) :=
  execGo_commits ox ct sc ds b (sortGroups groups) 1

/-! ## Claims C6, C9, C10: the `main` procedure -/

lemma insertGroup_ne_nil (k f : String) (gs : List (String × List String)) :
    insertGroup k f gs ≠ [] := by
  cases gs with
  | nil => simp [insertGroup]
  | cons p rest =>
    rcases p with ⟨k₀, fs⟩
    simp only [insertGroup]
    split <;> simp

lemma foldl_insert_ne_nil :
    ∀ (files : List String) (acc : List (String × List String)), acc ≠ [] →
      files.foldl (fun a f => insertGroup (groupKey f) f a) acc ≠ [] := by
  intro files
  induction files with
  | nil => intro acc h; exact h
  | cons f fs ih =>
    intro acc _
    simp only [List.foldl_cons]
    exact ih _ (insertGroup_ne_nil _ _ _)

lemma group_files_ne_nil (files : List String) (h : files ≠ []) (w : Bool) :
    group_files_by_directory files w ≠ [] := by
  cases w
  · rcases files with _ | ⟨f, fs⟩
    · exact absurd rfl h
    · simp only [group_files_by_directory, Bool.false_eq_true, if_false, List.foldl_cons]
      exact foldl_insert_ne_nil fs _ (insertGroup_ne_nil _ _ _)
  · simp [group_files_by_directory]

lemma sortKeys_ne_nil (ks : List String) (h : ks ≠ []) : sortKeys ks ≠ [] := by
  intro hc
  apply h
  have hlen : (sortKeys ks).length = ks.length :=
    (sortByB_perm (fun a b : String => strLe a.data b.data) ks).length_eq
  rw [hc] at hlen
  exact List.length_eq_zero.mp hlen.symm

/-- Claim C6: the positional branch of `main` binds the parse result to
the name `description`, while the preview loop reads `descriptions`, so
every positional run whose specification parses and that reaches the
preview fails with Python's `NameError` before any staging, commit, or
push; the flag-based mode never produces that error. -/
theorem positional_mode_nameerror :
    (∀ (spec ct sc : String) (ds : List String) (b bodyFlag : Option String)
       (sw : String) (co : Bool) (files : List String) (cr : String)
       (ox : GitOracles),
      parse_comma_separated_format spec VALID_TYPES VALID_SCOPES = .ok (ct, sc, ds, b) →
      files ≠ [] →
      mainRun ⟨none, none, none, bodyFlag, some spec⟩ "develop" sw co files cr ox
        = ([], .error .nameErrorDescriptions)) ∧
    (∀ (t s d : String) (b : Option String) (cb sw : String) (co : Bool)
       (files : List String) (cr : String) (ox : GitOracles),
      (mainRun ⟨some t, some s, some d, b, none⟩ cb sw co files cr ox).2
        ≠ .error .nameErrorDescriptions) := by
  constructor
  · intro spec ct sc ds b bodyFlag sw co files cr ox hparse hfiles
    have hw : sortKeys ((group_files_by_directory files
        (decide (sc = "*"))).map (fun p => p.1)) ≠ [] := by
      apply sortKeys_ne_nil
      simp only [ne_eq, List.map_eq_nil]
      exact group_files_ne_nil files hfiles _
    simp [mainRun, mainArgCheck, mainParse, hparse, hfiles, hw]
  · intro t s d b cb sw co files cr ox
    have h₁ : mainArgCheck ⟨some t, some s, some d, b, none⟩ = none := rfl
    have h₂ : mainParse ⟨some t, some s, some d, b, none⟩
        = .ok ⟨t, s, none, some (splitDescriptions d), b⟩ := rfl
    simp only [mainRun, h₁, h₂]
    split
    · simp
    · split
      · simp
      · split
        · simp
        · split
          · next hcond => exact absurd hcond.2 (by simp)
          · split
            · simp
            · simp

/-- Witness for claim C6 at a concrete valid positional specification
with one modified file: the run dies with the unbound-name error and an
empty mutation log, while the same request through flags is unaffected. -/
theorem positional_mode_nameerror_witness :
    mainRun ⟨none, none, none, none, some "feat,utils,Add retry"⟩ "develop" "" true
      ["a/x"] "s" ⟨fun _ => true, fun _ => true, fun _ => true, fun _ => true,
        fun _ => true⟩
      = ([], .error .nameErrorDescriptions) ∧
    (mainRun ⟨some "feat", some "utils", some "Add retry", none, none⟩ "develop" ""
      true ["a/x"] "s" ⟨fun _ => true, fun _ => true, fun _ => true, fun _ => true,
        fun _ => true⟩).2 ≠ .error .nameErrorDescriptions :=
  ⟨positional_mode_nameerror.1 "feat,utils,Add retry" "feat" "utils" ["Add retry"]
      none none "" true ["a/x"] "s" _ (by decide) (by decide),
   positional_mode_nameerror.2 "feat" "utils" "Add retry" none "develop" "" true
      ["a/x"] "s" _⟩

/-- Claim C9: mixing the structured-flag form with the positional form
fails with the conflict error before any value validation or repository
mutation (in both the commit script and the release script), and
supplying neither form fails with the validation error. -/
theorem conflict_validation_spec :
    (∀ (args : MainArgs) (cb sw : String) (co : Bool) (files : List String)
       (cr : String) (ox : GitOracles),
      ((args.argType.isSome || args.argScope.isSome || args.argDescription.isSome) = true →
        args.commit_string.isSome = true →
        mainRun args cb sw co files cr ox = ([], .error .conflictBoth)) ∧
      ((args.argType.isSome || args.argScope.isSome || args.argDescription.isSome) = false →
        args.commit_string.isSome = false →
        mainRun args cb sw co files cr ox = ([], .error .noArguments))) ∧
    (∀ a : ReleaseArgs,
      (releaseHasFlags a = true → releaseHasPositional a = true →
        releaseArgCheck a = some .conflictBothForms) ∧
      (releaseHasFlags a = false → releaseHasPositional a = false →
        releaseArgCheck a = some .noSpec)) := by
  constructor
  · intro args cb sw co files cr ox
    constructor
    · intro h₁ h₂
      simp [mainRun, mainArgCheck, h₁, h₂]
    · intro h₁ h₂
      simp [mainRun, mainArgCheck, h₁, h₂]
  · intro a
    constructor
    · intro h₁ h₂
      simp [releaseArgCheck, h₁, h₂]
    · intro h₁ h₂
      simp [releaseArgCheck, h₁, h₂]

/-- Witness for claim C9: individually valid flag values plus an
individually valid positional spec still conflict, in both scripts, and
empty invocations fail validation. -/
theorem conflict_validation_spec_witness :
    mainRun ⟨some "feat", some "utils", some "Ok", none, some "feat,utils,Ok"⟩
      "develop" "" true ["a/x"] "s"
      ⟨fun _ => true, fun _ => true, fun _ => true, fun _ => true, fun _ => true⟩
      = ([], .error .conflictBoth) ∧
    mainRun ⟨none, none, none, none, none⟩ "develop" "" true ["a/x"] "s"
      ⟨fun _ => true, fun _ => true, fun _ => true, fun _ => true, fun _ => true⟩
      = ([], .error .noArguments) ∧
    releaseArgCheck ⟨"feat", "release", "x", "", "feat,release,x"⟩
      = some .conflictBothForms ∧
    releaseArgCheck ⟨"", "", "", "", ""⟩ = some .noSpec := by
  refine ⟨?_, ?_, ?_, ?_⟩
  · exact (conflict_validation_spec.1 _ "develop" "" true ["a/x"] "s" _).1
      (by decide) (by decide)
  · exact (conflict_validation_spec.1 _ "develop" "" true ["a/x"] "s" _).2
      (by decide) (by decide)
  · exact (conflict_validation_spec.2 _).1 (by decide) (by decide)
  · exact (conflict_validation_spec.2 _).2 (by decide) (by decide)

/-- Claim C10: the commit confirmation accepts exactly the trimmed,
lower-cased token `s` and treats everything else as decline; declining
ends the run as cancelled with an empty mutation log — no staging,
commit, or push was issued. -/
theorem confirm_decline_zero_mutations :
    (∀ r : String, confirm_action r = true ↔ strTrimLower r ∈ (["s"] : List String)) ∧
    (∀ (t s d : String) (b : Option String) (sw : String) (co : Bool)
       (files : List String) (cr : String) (ox : GitOracles),
      files ≠ [] → confirm_action cr = false →
      mainRun ⟨some t, some s, some d, b, none⟩ "develop" sw co files cr ox
        = ([], .ok .cancelled)) := by
  constructor
  · intro r
    simp [confirm_action]
  · intro t s d b sw co files cr ox hfiles hcr
    have h₁ : mainArgCheck ⟨some t, some s, some d, b, none⟩ = none := rfl
    have h₂ : mainParse ⟨some t, some s, some d, b, none⟩
        = .ok ⟨t, s, none, some (splitDescriptions d), b⟩ := rfl
    simp [mainRun, h₁, h₂, hfiles, hcr]

/-- Witness for claim C10: the reply `n` declines and the run ends
cancelled with zero mutating git commands, while a stray `S ` still
confirms. -/
theorem confirm_decline_zero_mutations_witness :
    mainRun ⟨some "feat", some "utils", some "D", none, none⟩ "develop" "" true
      ["a/x"] "n" ⟨fun _ => true, fun _ => true, fun _ => true, fun _ => true,
        fun _ => true⟩
      = ([], .ok .cancelled) ∧
    confirm_action " S " = true := by
  refine ⟨confirm_decline_zero_mutations.2 "feat" "utils" "D" none "" true
    ["a/x"] "n" _ (by decide) (by decide), ?_⟩
  exact (confirm_decline_zero_mutations.1 " S ").mpr (by decide)

end GenaiCommit
